import Mathlib

/-
Shallow embedding of RustDirectorySniffer (src/src/lib.rs).

The filesystem is modelled as a tree of entries; a directory carries a
`readable` flag saying whether `fs::read_dir` on it succeeds, and a file
carries `Option Nat` metadata (`none` when `path.metadata()` fails).
Paths are component lists rendered with a "/" separator; Rust's u64 byte
sizes are modelled as Nat (overflow is irrelevant to the claims).
Fallible Rust code returning io::Result is modelled with Except Unit;
`unwrap` panics in the spawned scan thread are modelled with Option.
-/

/-- The FolderHierarchy record of lib.rs lines 7-13: cumulative size,
name, path string and child nodes. -/
inductive FolderHierarchy where
  | mk (value : Nat) (name : String) (path : String)
       (children : List FolderHierarchy)

def FolderHierarchy.value : FolderHierarchy → Nat
  | .mk v _ _ _ => v

def FolderHierarchy.name : FolderHierarchy → String
  | .mk _ n _ _ => n

def FolderHierarchy.path : FolderHierarchy → String
  | .mk _ _ p _ => p

def FolderHierarchy.children : FolderHierarchy → List FolderHierarchy
  | .mk _ _ _ c => c

/-- Model of a filesystem entry: a regular file with optional readable
metadata (byte length), or a directory with a listability flag and its
entries in enumeration order. -/
inductive FSEntry where
  | file (fname : String) (meta : Option Nat)
  | dir (dname : String) (readable : Bool) (entries : List FSEntry)

def FSEntry.isDir : FSEntry → Bool
  | .file _ _ => false
  | .dir _ _ _ => true

/-- A regular file whose metadata call succeeds. -/
def FSEntry.isReadableFile : FSEntry → Bool
  | .file _ (some _) => true
  | _ => false

def FSEntry.entriesOf : FSEntry → List FSEntry
  | .file _ _ => []
  | .dir _ _ es => es

/-- Rust `directory_path.file_name().unwrap_or_default()`: the final
path component, or the empty string for an empty path. -/
def lastComp (p : List String) : String := p.getLast?.getD ""

/-- Render a component path the way PathBuf::to_string_lossy renders it
(components joined by the separator). -/
def pathString (p : List String) : String := String.intercalate "/" p

mutual

/-- lib.rs lines 44-73 (`scan_folder`): list the directory, recurse into
subdirectories (propagating their errors with `?`), add readable file
lengths, and build the node with `name` = final component of
`directory_path` and `path` = its parent rendered as a string.  The
`shared_state` argument of the Rust function is never read or written
by it and is omitted.  An unreadable directory (failed `read_dir`) or a
file argument yields the error case. -/
def scan_folder (dirPath : List String) : FSEntry → Except Unit FolderHierarchy
  | .file _ _ => .error ()
  | .dir _ readable entries =>
    if readable then
      match scanEntries dirPath entries with
      | .error e => .error e
      | .ok (totalSize, children) =>
        .ok (.mk totalSize (lastComp dirPath) (pathString dirPath.dropLast) children)
    else .error ()

/-- The entry loop of `scan_folder` (lib.rs lines 50-62): directories are
scanned recursively (errors propagate), readable files add their length
to the running total and create no child, files with unreadable metadata
are skipped. -/
def scanEntries (dirPath : List String) : List FSEntry → Except Unit (Nat × List FolderHierarchy)
  | [] => .ok (0, [])
  | .file _ meta :: rest =>
    match scanEntries dirPath rest with
    | .error e => .error e
    | .ok (sz, ch) =>
      match meta with
      | some n => .ok (n + sz, ch)
      | none => .ok (sz, ch)
  | .dir dn r des :: rest =>
    match scan_folder (dirPath ++ [dn]) (.dir dn r des) with
    | .error e => .error e
    | .ok child =>
      match scanEntries dirPath rest with
      | .error e => .error e
      | .ok (sz, ch) => .ok (child.value + sz, child :: ch)

end

mutual

/-- lib.rs lines 24-42 (`get_folder_size`): same traversal as
`scan_folder` but returning only the accumulated size. -/
def get_folder_size : FSEntry → Except Unit Nat
  | .file _ _ => .error ()
  | .dir _ readable entries =>
    if readable then sizeEntries entries else .error ()

/-- The entry loop of `get_folder_size` (lib.rs lines 29-39). -/
def sizeEntries : List FSEntry → Except Unit Nat
  | [] => .ok 0
  | .file _ meta :: rest =>
    match sizeEntries rest with
    | .error e => .error e
    | .ok sz =>
      match meta with
      | some n => .ok (n + sz)
      | none => .ok sz
  | .dir dn r des :: rest =>
    match get_folder_size (.dir dn r des) with
    | .error e => .error e
    | .ok s =>
      match sizeEntries rest with
      | .error e => .error e
      | .ok sz => .ok (s + sz)

end

/-- The entry loop of `scan_directory_async` (lib.rs lines 111-136),
run against the root's entries with the freshly seeded root node as
accumulator: a subdirectory is scanned with `scan_folder` (`unwrap` on
its error panics the scan thread, modelled as `none`), its value added
and the subtree pushed as a child; a readable regular file adds its
length AND pushes a child node for the file (value = length, path =
parent directory string); a file with unreadable metadata is skipped. -/
def asyncFold (rootPath : List String) (acc : FolderHierarchy) : List FSEntry → Option FolderHierarchy
  | [] => some acc
  | .file fn meta :: rest =>
    match meta with
    | some n =>
      asyncFold rootPath
        (.mk (acc.value + n) acc.name acc.path
          (acc.children ++ [.mk n fn (pathString rootPath) []])) rest
    | none => asyncFold rootPath acc rest
  | .dir dn r des :: rest =>
    match scan_folder (rootPath ++ [dn]) (.dir dn r des) with
    | .error _ => none
    | .ok child =>
      asyncFold rootPath
        (.mk (acc.value + child.value) acc.name acc.path
          (acc.children ++ [child])) rest

/-- lib.rs lines 91-137: the scan thread seeds the root node (value 0,
name = final component, path = the full directory path string, no
children) and then folds the root directory's entries into it.  A root
that is not a listable directory makes the `read_dir(...).unwrap()`
panic, modelled as `none`. -/
def scan_directory_async (rootPath : List String) : FSEntry → Option FolderHierarchy
  | .file _ _ => none
  | .dir _ readable entries =>
    if readable then
      asyncFold rootPath (.mk 0 (lastComp rootPath) (pathString rootPath) []) entries
    else none

/-- What `get_directory_map` serializes: either a FolderHierarchy (the
JSON object) or the empty JSON array `serde_json::to_string(&Vec::new())`
used by both the path-mismatch and the unrecognized-depth branches. -/
inductive QueryResult where
  | tree (h : FolderHierarchy)
  | emptyArray

/-- The per-child copy of the depth-0 branch (lib.rs lines 167-172):
value, name and path are copied, `children` is emptied. -/
def clearChildren : FolderHierarchy → FolderHierarchy
  | .mk v n p _ => .mk v n p []

/-- Rust `str::replace("\\", "/")`: every backslash character becomes a
forward slash (modelled as a character map so that it evaluates). -/
def normalizeSep (s : String) : String :=
  String.mk (s.data.map fun c => if c = '\\' then '/' else c)

/-- lib.rs lines 143-208 (`get_directory_map`): normalize the separators
of the query path, then match on `GLOBAL_DIRECTORY_MAP.lock()`.
`lockPoisoned` models whether that mutex was poisoned by a scan-thread
panic while the guard was held (reachable: the guard taken at line 104
is live across the `unwrap`s at lines 108, 111 and 117).  The
`Err(poisoned)` arm (lines 197-204) recovers the guard with
`into_inner` and serializes the ENTIRE published map, consulting
neither the query path nor the depth.  The `Ok(guard)` arm compares the
normalized paths: on mismatch it returns the empty-array JSON; on match
it returns the depth-0 projection (children kept, grandchildren
cleared), the full tree for depth 1, and the empty-array JSON for any
other depth. -/
def get_directory_map (lockPoisoned : Bool) (globalMap : FolderHierarchy)
    (pathArg : String) (depth : Int) : QueryResult :=
  let pathStr := normalizeSep pathArg
  if lockPoisoned then
    .tree globalMap
  else if normalizeSep globalMap.path = pathStr then
    if depth = 0 then
      .tree (.mk globalMap.value globalMap.name globalMap.path
        (globalMap.children.map clearChildren))
    else if depth = 1 then
      .tree globalMap
    else
      .emptyArray
  else
    .emptyArray

/-- Sum of the `value` fields of a list of nodes. -/
def sumVals : List FolderHierarchy → Nat
  | [] => 0
  | c :: rest => c.value + sumVals rest

/-- Total byte length of the regular files directly in an entry list
whose metadata is readable (the sizes `scan_folder` adds at lib.rs
lines 57-58; files with failing metadata are skipped at line 59). -/
def fileBytes : List FSEntry → Nat
  | [] => 0
  | .file _ (some n) :: rest => n + fileBytes rest
  | .file _ none :: rest => fileBytes rest
  | .dir _ _ _ :: rest => fileBytes rest

mutual

/-- A node together with all of its descendants. -/
def allNodes : FolderHierarchy → List FolderHierarchy
  | .mk v n p cs => .mk v n p cs :: allNodesList cs

def allNodesList : List FolderHierarchy → List FolderHierarchy
  | [] => []
  | c :: rest => allNodes c ++ allNodesList rest

end

mutual

/-- Every directory reachable through listable directories (including
the entry itself, when it is a directory) can be listed. -/
def listable : FSEntry → Bool
  | .file _ _ => true
  | .dir _ r es => r && listableList es

def listableList : List FSEntry → Bool
  | [] => true
  | e :: rest => listable e && listableList rest

end

def isOkE {α : Type} : Except Unit α → Bool
  | .ok _ => true
  | .error _ => false

/-- Events of the scan thread of `scan_directory_async`, in program
order: taking and dropping the GLOBAL_DIRECTORY_MAP mutex, and
filesystem operations (read_dir / metadata calls). -/
inductive LockEvent where
  | acquire
  | ioOp
  | release
deriving DecidableEq

mutual

/-- Filesystem operations performed while processing one entry, in
order: a directory contributes its `read_dir` (lib.rs lines 46/108)
followed, when listable, by the operations on its entries; a file
contributes its `metadata` call (lib.rs lines 57/122). -/
def entryOps : FSEntry → List LockEvent
  | .file _ _ => [.ioOp]
  | .dir _ r es => .ioOp :: (if r then opsList es else [])

def opsList : List FSEntry → List LockEvent
  | [] => []
  | e :: rest => entryOps e ++ opsList rest

end

/-- The scan thread's event trace (lib.rs lines 91-137): the mutex is
acquired at line 104, before the root `read_dir` at line 108; every
filesystem operation of the scan follows; the MutexGuard is dropped
only when the async block ends at line 137. -/
def writerTrace (root : FSEntry) : List LockEvent :=
  .acquire :: entryOps root ++ [.release]

/-- Scans a trace and reports whether some filesystem operation happens
while the lock is held; the Bool argument is the lock state at the
start of the trace. -/
def heldAcrossIo : Bool → List LockEvent → Bool
  | _, [] => false
  | _, .acquire :: rest => heldAcrossIo true rest
  | _, .release :: rest => heldAcrossIo false rest
  | locked, .ioOp :: rest => locked || heldAcrossIo locked rest

/-- Mutual structural induction for FSEntry and lists of FSEntry,
implemented by strong induction on sizeOf. -/
theorem fsInd (P : FSEntry → Prop) (Q : List FSEntry → Prop)
    (hfile : ∀ n m, P (.file n m))
    (hdir : ∀ n r es, Q es → P (.dir n r es))
    (hnil : Q [])
    (hcons : ∀ e es, P e → Q es → Q (e :: es)) :
    (∀ e, P e) ∧ (∀ es, Q es) := by
  have key : ∀ k : Nat, (∀ e : FSEntry, sizeOf e ≤ k → P e) ∧
      (∀ es : List FSEntry, sizeOf es ≤ k → Q es) := by
    intro k
    induction k with
    | zero =>
      constructor
      · intro e h
        cases e <;> simp at h
      · intro es h
        cases es with
        | nil => exact hnil
        | cons e rest => simp at h
    | succ k ih =>
      constructor
      · intro e h
        cases e with
        | file n m => exact hfile n m
        | dir n r es =>
          apply hdir
          apply ih.2
          simp at h
          omega
      · intro es h
        cases es with
        | nil => exact hnil
        | cons e rest =>
          apply hcons
          · apply ih.1
            simp at h
            omega
          · apply ih.2
            simp at h
            omega
  exact ⟨fun e => (key (sizeOf e)).1 e le_rfl, fun es => (key (sizeOf es)).2 es le_rfl⟩

@[simp]
theorem FolderHierarchy.value_mk (v : Nat) (n p : String) (c : List FolderHierarchy) :
    (FolderHierarchy.mk v n p c).value = v := rfl

@[simp]
theorem FolderHierarchy.name_mk (v : Nat) (n p : String) (c : List FolderHierarchy) :
    (FolderHierarchy.mk v n p c).name = n := rfl

@[simp]
theorem FolderHierarchy.path_mk (v : Nat) (n p : String) (c : List FolderHierarchy) :
    (FolderHierarchy.mk v n p c).path = p := rfl

@[simp]
theorem FolderHierarchy.children_mk (v : Nat) (n p : String) (c : List FolderHierarchy) :
    (FolderHierarchy.mk v n p c).children = c := rfl

@[simp]
theorem clearChildren_value (c : FolderHierarchy) : (clearChildren c).value = c.value := by
  cases c; rfl

@[simp]
theorem clearChildren_name (c : FolderHierarchy) : (clearChildren c).name = c.name := by
  cases c; rfl

@[simp]
theorem clearChildren_path (c : FolderHierarchy) : (clearChildren c).path = c.path := by
  cases c; rfl

@[simp]
theorem clearChildren_children (c : FolderHierarchy) : (clearChildren c).children = [] := by
  cases c; rfl

theorem sumVals_append (l : List FolderHierarchy) (c : FolderHierarchy) :
    sumVals (l ++ [c]) = sumVals l + c.value := by
  induction l with
  | nil => simp [sumVals]
  | cons x rest ih => simp [sumVals, ih]; omega

/-- The running total of the `scan_folder` loop is the sum of the child
subtree values plus the readable file bytes of the entry list. -/
theorem scanEntries_sum :
    ∀ (es : List FSEntry) (dp : List String) (sz : Nat) (ch : List FolderHierarchy),
      scanEntries dp es = .ok (sz, ch) → sz = sumVals ch + fileBytes es := by
  intro es
  induction es with
  | nil =>
    intro dp sz ch h
    simp [scanEntries] at h
    simp [h.1, h.2, sumVals, fileBytes]
  | cons e rest ih =>
    intro dp sz ch h
    cases e with
    | file fn meta =>
      simp only [scanEntries] at h
      cases hrest : scanEntries dp rest with
      | error e => rw [hrest] at h; cases h
      | ok p =>
        obtain ⟨sz1, ch1⟩ := p
        rw [hrest] at h
        have hr := ih dp sz1 ch1 hrest
        cases meta with
        | some n =>
          simp at h
          obtain ⟨h1, h2⟩ := h
          subst h1; subst h2
          simp [fileBytes, hr]; omega
        | none =>
          simp at h
          obtain ⟨h1, h2⟩ := h
          subst h1; subst h2
          simp [fileBytes, hr]
    | dir dn r des =>
      simp only [scanEntries] at h
      cases hc : scan_folder (dp ++ [dn]) (.dir dn r des) with
      | error e => rw [hc] at h; cases h
      | ok child =>
        rw [hc] at h
        cases hrest : scanEntries dp rest with
        | error e => rw [hrest] at h; cases h
        | ok p =>
          obtain ⟨sz1, ch1⟩ := p
          rw [hrest] at h
          have hr := ih dp sz1 ch1 hrest
          simp at h
          obtain ⟨h1, h2⟩ := h
          subst h1; subst h2
          simp [fileBytes, sumVals, hr]; omega

/-- Successful `scan_folder` runs are exactly the runs on a listable
directory whose entry loop succeeds, and they produce the node built at
lib.rs lines 64-72. -/
theorem scan_folder_ok_shape (dp : List String) (dn : String) (r : Bool)
    (es : List FSEntry) (h : FolderHierarchy)
    (hok : scan_folder dp (.dir dn r es) = .ok h) :
    r = true ∧ ∃ sz ch, scanEntries dp es = .ok (sz, ch) ∧
      h = .mk sz (lastComp dp) (pathString dp.dropLast) ch := by
  simp only [scan_folder] at hok
  cases r with
  | false => simp at hok
  | true =>
    simp at hok
    cases hse : scanEntries dp es with
    | error e => rw [hse] at hok; cases hok
    | ok p =>
      obtain ⟨sz, ch⟩ := p
      rw [hse] at hok
      simp at hok
      exact ⟨rfl, sz, ch, rfl, hok.symm⟩

/-- `scan_folder` succeeds exactly when it is run on a directory all of
whose reachable subdirectories (itself included) are listable; the entry
loop succeeds exactly when the entry list is recursively listable. -/
theorem scan_ok_iff_listable :
    (∀ e : FSEntry, ∀ dp : List String,
        isOkE (scan_folder dp e) = (e.isDir && listable e)) ∧
    (∀ es : List FSEntry, ∀ dp : List String,
        isOkE (scanEntries dp es) = listableList es) := by
  apply fsInd
  · intro n m dp
    simp [scan_folder, isOkE, FSEntry.isDir]
  · intro n r es ihq dp
    cases r with
    | false => simp [scan_folder, isOkE, FSEntry.isDir, listable]
    | true =>
      simp only [scan_folder, FSEntry.isDir, listable, if_true]
      cases hse : scanEntries dp es with
      | error e =>
        have := ihq dp
        rw [hse] at this
        simp [isOkE] at this
        simp [isOkE, ← this]
      | ok p =>
        obtain ⟨sz, ch⟩ := p
        have := ihq dp
        rw [hse] at this
        simp [isOkE] at this
        simp [isOkE, ← this]
  · intro dp
    simp [scanEntries, isOkE, listableList]
  · intro e es ihp ihq dp
    cases e with
    | file fn meta =>
      simp only [scanEntries, listableList, listable]
      cases hrest : scanEntries dp es with
      | error er =>
        have := ihq dp
        rw [hrest] at this
        simp [isOkE] at this
        simp [isOkE, ← this]
      | ok p =>
        obtain ⟨sz, ch⟩ := p
        have := ihq dp
        rw [hrest] at this
        simp [isOkE] at this
        cases meta <;> simp [isOkE, ← this]
    | dir dn r des =>
      simp only [scanEntries, listableList]
      cases hc : scan_folder (dp ++ [dn]) (.dir dn r des) with
      | error er =>
        have := ihp (dp ++ [dn])
        rw [hc] at this
        simp [isOkE, FSEntry.isDir] at this
        simp [isOkE, ← this]
      | ok child =>
        have := ihp (dp ++ [dn])
        rw [hc] at this
        simp [isOkE, FSEntry.isDir] at this
        cases hrest : scanEntries dp es with
        | error er =>
          have h2 := ihq dp
          rw [hrest] at h2
          simp [isOkE] at h2
          simp [isOkE, ← this, ← h2]
        | ok p =>
          obtain ⟨sz, ch⟩ := p
          have h2 := ihq dp
          rw [hrest] at h2
          simp [isOkE] at h2
          simp [isOkE, this, h2]

/-- The `scan_directory_async` entry loop completes (no `unwrap` panic)
exactly when every subdirectory subtree is recursively listable. -/
theorem asyncFold_isSome :
    ∀ (es : List FSEntry) (rp : List String) (acc : FolderHierarchy),
      (asyncFold rp acc es).isSome = listableList es := by
  intro es
  induction es with
  | nil => intro rp acc; simp [asyncFold, listableList]
  | cons e rest ih =>
    intro rp acc
    cases e with
    | file fn meta =>
      cases meta <;> simp [asyncFold, listableList, listable, ih]
    | dir dn r des =>
      simp only [asyncFold, listableList]
      cases hc : scan_folder (rp ++ [dn]) (.dir dn r des) with
      | error er =>
        have := scan_ok_iff_listable.1 (.dir dn r des) (rp ++ [dn])
        rw [hc] at this
        simp [isOkE, FSEntry.isDir] at this
        simp [← this]
      | ok child =>
        have := scan_ok_iff_listable.1 (.dir dn r des) (rp ++ [dn])
        rw [hc] at this
        simp [isOkE, FSEntry.isDir] at this
        simp [this, ih]

/-- The `scan_directory_async` entry loop never touches the root node's
`name` and `path` fields. -/
theorem asyncFold_name_path :
    ∀ (es : List FSEntry) (rp : List String) (acc h : FolderHierarchy),
      asyncFold rp acc es = some h → h.name = acc.name ∧ h.path = acc.path := by
  intro es
  induction es with
  | nil =>
    intro rp acc h hf
    simp [asyncFold] at hf
    subst hf; exact ⟨rfl, rfl⟩
  | cons e rest ih =>
    intro rp acc h hf
    cases e with
    | file fn meta =>
      cases meta with
      | some n =>
        simp only [asyncFold] at hf
        have := ih rp _ h hf
        simpa using this
      | none =>
        simp only [asyncFold] at hf
        exact ih rp acc h hf
    | dir dn r des =>
      simp only [asyncFold] at hf
      cases hc : scan_folder (rp ++ [dn]) (.dir dn r des) with
      | error er => rw [hc] at hf; cases hf
      | ok child =>
        rw [hc] at hf
        have := ih rp _ h hf
        simpa using this

/-- Along the `scan_directory_async` entry loop, the root's value stays
equal to the sum of its children's values: a subdirectory contributes
its subtree value, and a readable file contributes its length while a
child node carrying exactly that length is pushed. -/
theorem asyncFold_value :
    ∀ (es : List FSEntry) (rp : List String) (acc h : FolderHierarchy),
      acc.value = sumVals acc.children →
      asyncFold rp acc es = some h → h.value = sumVals h.children := by
  intro es
  induction es with
  | nil =>
    intro rp acc h hinv hf
    simp [asyncFold] at hf
    subst hf; exact hinv
  | cons e rest ih =>
    intro rp acc h hinv hf
    cases e with
    | file fn meta =>
      cases meta with
      | some n =>
        simp only [asyncFold] at hf
        apply ih rp _ h _ hf
        simp [sumVals_append, hinv]
      | none =>
        simp only [asyncFold] at hf
        exact ih rp acc h hinv hf
    | dir dn r des =>
      simp only [asyncFold] at hf
      cases hc : scan_folder (rp ++ [dn]) (.dir dn r des) with
      | error er => rw [hc] at hf; cases hf
      | ok child =>
        rw [hc] at hf
        apply ih rp _ h _ hf
        simp [sumVals_append, hinv]

/-- Along the `scan_directory_async` entry loop, one child node is
pushed per subdirectory and one per readable regular file. -/
theorem asyncFold_length :
    ∀ (es : List FSEntry) (rp : List String) (acc h : FolderHierarchy),
      asyncFold rp acc es = some h →
      h.children.length = acc.children.length +
        (es.filter FSEntry.isDir).length +
        (es.filter FSEntry.isReadableFile).length := by
  intro es
  induction es with
  | nil =>
    intro rp acc h hf
    simp [asyncFold] at hf
    subst hf; simp
  | cons e rest ih =>
    intro rp acc h hf
    cases e with
    | file fn meta =>
      cases meta with
      | some n =>
        simp only [asyncFold] at hf
        have := ih rp _ h hf
        simp [FSEntry.isDir, FSEntry.isReadableFile, List.filter] at this ⊢
        omega
      | none =>
        simp only [asyncFold] at hf
        have := ih rp acc h hf
        simp [FSEntry.isDir, FSEntry.isReadableFile, List.filter] at this ⊢
        omega
    | dir dn r des =>
      simp only [asyncFold] at hf
      cases hc : scan_folder (rp ++ [dn]) (.dir dn r des) with
      | error er => rw [hc] at hf; cases hf
      | ok child =>
        rw [hc] at hf
        have := ih rp _ h hf
        simp [FSEntry.isDir, FSEntry.isReadableFile, List.filter] at this ⊢
        omega

/-- `get_folder_size` and `scan_folder` are the same traversal: the
plain size computation returns exactly the `value` field of the tree
the scan builds, on every input (including all error cases). -/
theorem size_eq_scan_value :
    (∀ e : FSEntry, ∀ dp : List String,
        get_folder_size e = Except.map FolderHierarchy.value (scan_folder dp e)) ∧
    (∀ es : List FSEntry, ∀ dp : List String,
        sizeEntries es = Except.map Prod.fst (scanEntries dp es)) := by
  apply fsInd
  · intro n m dp
    simp [get_folder_size, scan_folder, Except.map]
  · intro n r es ihq dp
    cases r with
    | false => simp [get_folder_size, scan_folder, Except.map]
    | true =>
      simp only [get_folder_size, scan_folder, if_true]
      cases hse : scanEntries dp es with
      | error e =>
        have := ihq dp
        rw [hse] at this
        simp [Except.map] at this ⊢
        exact this
      | ok p =>
        obtain ⟨sz, ch⟩ := p
        have := ihq dp
        rw [hse] at this
        simp [Except.map] at this ⊢
        exact this
  · intro dp
    simp [sizeEntries, scanEntries, Except.map]
  · intro e es ihp ihq dp
    cases e with
    | file fn meta =>
      simp only [sizeEntries, scanEntries]
      cases hrest : scanEntries dp es with
      | error er =>
        have := ihq dp
        rw [hrest] at this
        rw [this]
        simp [Except.map]
      | ok p =>
        obtain ⟨sz, ch⟩ := p
        have := ihq dp
        rw [hrest] at this
        rw [this]
        cases meta <;> simp [Except.map]
    | dir dn r des =>
      simp only [sizeEntries, scanEntries]
      cases hc : scan_folder (dp ++ [dn]) (.dir dn r des) with
      | error er =>
        have := ihp (dp ++ [dn])
        rw [hc] at this
        rw [this]
        simp [Except.map]
      | ok child =>
        have := ihp (dp ++ [dn])
        rw [hc] at this
        rw [this]
        cases hrest : scanEntries dp es with
        | error er =>
          have h2 := ihq dp
          rw [hrest] at h2
          rw [h2]
          simp [Except.map]
        | ok p =>
          obtain ⟨sz, ch⟩ := p
          have h2 := ihq dp
          rw [hrest] at h2
          rw [h2]
          simp [Except.map]

/-- Every node of a tree built by `scan_folder` — the root and every
descendant — is itself the result of a successful `scan_folder` run on
some directory, and its value is the sum of its children's values plus
the readable file bytes directly in that directory. -/
theorem scan_folder_all_nodes :
    (∀ e : FSEntry, ∀ (dp : List String) (h : FolderHierarchy),
        scan_folder dp e = .ok h →
        ∀ n ∈ allNodes h, ∃ q e1, scan_folder q e1 = .ok n ∧
          n.value = sumVals n.children + fileBytes e1.entriesOf) ∧
    (∀ es : List FSEntry, ∀ (dp : List String) (sz : Nat) (ch : List FolderHierarchy),
        scanEntries dp es = .ok (sz, ch) →
        ∀ n ∈ allNodesList ch, ∃ q e1, scan_folder q e1 = .ok n ∧
          n.value = sumVals n.children + fileBytes e1.entriesOf) := by
  apply fsInd
  · intro fn m dp h hok
    simp [scan_folder] at hok
  · intro dn r es ihq dp h hok
    obtain ⟨hr, sz, ch, hse, hh⟩ := scan_folder_ok_shape dp dn r es h hok
    subst hr
    subst hh
    intro n hn
    simp only [allNodes] at hn
    rcases List.mem_cons.mp hn with heq | hmem
    · subst heq
      refine ⟨dp, .dir dn true es, hok, ?_⟩
      simp [FSEntry.entriesOf]
      exact scanEntries_sum es dp sz ch hse
    · exact ihq dp sz ch hse n hmem
  · intro dp sz ch hsc
    simp [scanEntries] at hsc
    rw [hsc.2]
    intro n hn
    simp [allNodesList] at hn
  · intro e es ihp ihq dp sz ch hsc n hn
    cases e with
    | file fn meta =>
      simp only [scanEntries] at hsc
      cases hrest : scanEntries dp es with
      | error er => rw [hrest] at hsc; cases hsc
      | ok p =>
        obtain ⟨sz1, ch1⟩ := p
        rw [hrest] at hsc
        cases meta with
        | some m =>
          simp at hsc
          obtain ⟨h1, h2⟩ := hsc
          subst h2
          exact ihq dp sz1 ch1 hrest n hn
        | none =>
          simp at hsc
          obtain ⟨h1, h2⟩ := hsc
          subst h2
          exact ihq dp sz1 ch1 hrest n hn
    | dir dn r des =>
      simp only [scanEntries] at hsc
      cases hc : scan_folder (dp ++ [dn]) (.dir dn r des) with
      | error er => rw [hc] at hsc; cases hsc
      | ok child =>
        rw [hc] at hsc
        cases hrest : scanEntries dp es with
        | error er => rw [hrest] at hsc; cases hsc
        | ok p =>
          obtain ⟨sz1, ch1⟩ := p
          rw [hrest] at hsc
          simp at hsc
          obtain ⟨h1, h2⟩ := hsc
          rw [h2.symm] at hn
          simp only [allNodesList] at hn
          rcases List.mem_append.mp hn with hmem | hmem
          · exact ihp (dp ++ [dn]) child hc n hmem
          · exact ihq dp sz1 ch1 hrest n hmem

/-- The `scan_folder` entry loop creates exactly one child per
subdirectory and none per file. -/
theorem scanEntries_length :
    ∀ (es : List FSEntry) (dp : List String) (sz : Nat) (ch : List FolderHierarchy),
      scanEntries dp es = .ok (sz, ch) →
      ch.length = (es.filter FSEntry.isDir).length := by
  intro es
  induction es with
  | nil =>
    intro dp sz ch h
    simp [scanEntries] at h
    simp [h.2]
  | cons e rest ih =>
    intro dp sz ch h
    cases e with
    | file fn meta =>
      simp only [scanEntries] at h
      cases hrest : scanEntries dp rest with
      | error er => rw [hrest] at h; cases h
      | ok p =>
        obtain ⟨sz1, ch1⟩ := p
        rw [hrest] at h
        have hr := ih dp sz1 ch1 hrest
        cases meta with
        | some n =>
          simp at h
          rw [h.2.symm]
          simp [List.filter, FSEntry.isDir, hr]
        | none =>
          simp at h
          rw [h.2.symm]
          simp [List.filter, FSEntry.isDir, hr]
    | dir dn r des =>
      simp only [scanEntries] at h
      cases hc : scan_folder (dp ++ [dn]) (.dir dn r des) with
      | error er => rw [hc] at h; cases h
      | ok child =>
        rw [hc] at h
        cases hrest : scanEntries dp rest with
        | error er => rw [hrest] at h; cases h
        | ok p =>
          obtain ⟨sz1, ch1⟩ := p
          rw [hrest] at h
          have hr := ih dp sz1 ch1 hrest
          simp at h
          rw [h.2.symm]
          simp [List.filter, FSEntry.isDir, hr]

/-- C1 counterexample: the claim's invariant
`value = sum(children.value) + directly-owned readable file bytes`
fails on the root node produced by `scan_directory_async` whenever the
root directly contains a readable file, because that file also appears
as a child (lib.rs lines 124-131), so the claimed formula counts its
bytes twice: on a root holding one 5-byte file, the produced root has
value 5 but the formula demands 5 + 5 = 10. -/
theorem c1_counterexample :
    scan_directory_async ["r"] (.dir "r" true [.file "f" (some 5)]) =
      some (.mk 5 "r" "r" [.mk 5 "f" "r" []]) ∧
    ¬ ((FolderHierarchy.mk 5 "r" "r" [.mk 5 "f" "r" []]).value =
        sumVals (FolderHierarchy.mk 5 "r" "r" [.mk 5 "f" "r" []]).children +
        fileBytes (FSEntry.entriesOf (.dir "r" true [.file "f" (some 5)]))) := by
  constructor
  · rfl
  · decide

/-- C1 amended: every node of a tree built by `scan_folder` (the root
and all descendants) is a `scan_folder` result for some directory and
satisfies `value = sum(children.value) + readable file bytes of that
directory`; the root built by `scan_directory_async`, by contrast,
satisfies `value = sum(children.value)` alone, because the readable
files it directly owns are themselves pushed as children carrying
exactly their byte lengths. -/
theorem c1_amended :
    (∀ (e : FSEntry) (dp : List String) (h : FolderHierarchy),
        scan_folder dp e = .ok h →
        ∀ n ∈ allNodes h, ∃ q e1, scan_folder q e1 = .ok n ∧
          n.value = sumVals n.children + fileBytes e1.entriesOf) ∧
    (∀ (rp : List String) (e : FSEntry) (h : FolderHierarchy),
        scan_directory_async rp e = some h →
        h.value = sumVals h.children) := by
  constructor
  · exact scan_folder_all_nodes.1
  · intro rp e h hok
    cases e with
    | file fn m => simp [scan_directory_async] at hok
    | dir dn r es =>
      simp only [scan_directory_async] at hok
      cases r with
      | false => simp at hok
      | true =>
        simp at hok
        exact asyncFold_value es rp _ h (by simp [sumVals]) hok

/-- Witness for C1 amended: both parts applied at concrete scans — a
directory holding one 2-byte file for `scan_folder`, and a root holding
one 5-byte file for `scan_directory_async`. -/
theorem c1_amended_witness :
    (∃ q e1, scan_folder q e1 = .ok (.mk 2 "r" "" []) ∧
      (FolderHierarchy.mk 2 "r" "" []).value =
        sumVals (FolderHierarchy.mk 2 "r" "" []).children + fileBytes e1.entriesOf) ∧
    (FolderHierarchy.mk 5 "r" "r" [.mk 5 "f" "r" []]).value =
      sumVals (FolderHierarchy.mk 5 "r" "r" [.mk 5 "f" "r" []]).children :=
  ⟨c1_amended.1 (.dir "r" true [.file "f" (some 2)]) ["r"] (.mk 2 "r" "" [])
      (by rfl) (.mk 2 "r" "" []) (by simp [allNodes, allNodesList]),
    c1_amended.2 ["r"] (.dir "r" true [.file "f" (some 5)])
      (.mk 5 "r" "r" [.mk 5 "f" "r" []]) (by rfl)⟩

/-- C2: the claim that the writer never holds the shared-state lock
across filesystem I/O is false of the code: `scan_directory_async`
acquires the GLOBAL_DIRECTORY_MAP mutex (lib.rs line 104) before its
first `read_dir` (line 108) and drops the guard only when the whole
scan loop ends (line 137), so on every scan — here shown for every
modelled root — some filesystem operation (in fact all of them) happens
while the lock is held, and a concurrent reader blocks for the
duration of the scan's I/O. -/
theorem c2_lock_held_during_scan :
    ∀ e : FSEntry, heldAcrossIo false (writerTrace e) = true := by
  intro e
  cases e with
  | file fn m => rfl
  | dir dn r es => simp [writerTrace, entryOps, heldAcrossIo]

/-- C3: the code contains no cancellation mechanism at all — no cancel
operation is exported, `scan_folder` takes only a path (its unused
shared-state argument aside) and consults no flag, and its result type
has no cancelled outcome — so a scan always recurses to full depth: on
a three-level directory chain the walker returns the complete subtree
unconditionally. -/
theorem c3_scan_ignores_cancellation :
    scan_folder ["r"] (.dir "r" true [.dir "a" true [.dir "b" true [.file "f" (some 4)]]]) =
      .ok (.mk 4 "r" "" [.mk 4 "a" "r" [.mk 4 "b" "r/a" []]]) := by
  rfl

/-- C4 counterexample: an unlistable non-root subdirectory does not
resolve to a zero-size errored subtree — it aborts the whole scan: with
root "r" listable but child directory "s" unlistable, `scan_folder`
propagates the error (lib.rs line 53 `?`) and the sibling file is never
reported, while `scan_directory_async` panics its scan thread (line 117
`unwrap`), modelled as `none`. -/
theorem c4_counterexample :
    scan_folder ["r"] (.dir "r" true [.dir "s" false [], .file "f" (some 7)]) = .error () ∧
    scan_directory_async ["r"] (.dir "r" true [.dir "s" false [], .file "f" (some 7)]) = none :=
  ⟨rfl, rfl⟩

/-- C4 amended: a scan succeeds if and only if the root directory and
every subdirectory reachable through listable directories is itself
listable — any failing directory listing, root or not, is fatal to the
whole scan, for both `scan_folder` and `scan_directory_async`. -/
theorem c4_amended :
    (∀ (dp : List String) (dn : String) (r : Bool) (es : List FSEntry),
        isOkE (scan_folder dp (.dir dn r es)) = listable (.dir dn r es)) ∧
    (∀ (rp : List String) (rn : String) (r : Bool) (es : List FSEntry),
        (scan_directory_async rp (.dir rn r es)).isSome = listable (.dir rn r es)) := by
  constructor
  · intro dp dn r es
    rw [scan_ok_iff_listable.1 (.dir dn r es) dp]
    simp [FSEntry.isDir]
  · intro rp rn r es
    cases r with
    | false => simp [scan_directory_async, listable]
    | true =>
      simp only [scan_directory_async, if_true]
      rw [asyncFold_isSome]
      simp [listable]

/-- C5 counterexample: after a scan-thread panic poisons the shared
mutex (reachable: the `unwrap`s at lib.rs 108/111/117 run while the
guard from line 104 is held, e.g. on any unlistable subdirectory), a
depth-0 query with a MATCHING path hits the `Err(poisoned)` arm
(lib.rs 197-204) and returns the full unprojected tree: the returned
child "a" still carries its own child "b", so it is not true that
every returned child's children list is emptied. -/
theorem c5_counterexample :
    get_directory_map true (.mk 10 "r" "r" [.mk 7 "a" "r" [.mk 3 "b" "r/a" []]]) "r" 0 =
      .tree (.mk 10 "r" "r" [.mk 7 "a" "r" [.mk 3 "b" "r/a" []]]) ∧
    FolderHierarchy.mk 7 "a" "r" [.mk 3 "b" "r/a" []] ∈
      (FolderHierarchy.mk 10 "r" "r" [.mk 7 "a" "r" [.mk 3 "b" "r/a" []]]).children ∧
    (FolderHierarchy.mk 7 "a" "r" [.mk 3 "b" "r/a" []]).children ≠ [] := by
  refine ⟨rfl, by simp, by simp⟩

/-- C5 amended: while the shared mutex is healthy, a depth-0 query on a
matching path returns the root with value, name and path unchanged and
exactly one projected child per published child, each keeping its own
value, while every returned child's `children` list is emptied — the
cumulative totals are hidden-from-view copies, not recomputed; but
once the mutex is poisoned by a scan-thread panic, every query returns
the full unprojected published tree, whatever the path and depth. -/
theorem c5_amended :
    (∀ (m : FolderHierarchy) (p : String),
        normalizeSep m.path = normalizeSep p →
        ∃ h, get_directory_map false m p 0 = .tree h ∧
          h.value = m.value ∧ h.name = m.name ∧ h.path = m.path ∧
          h.children.length = m.children.length ∧
          h.children.map FolderHierarchy.value = m.children.map FolderHierarchy.value ∧
          ∀ c ∈ h.children, c.children = []) ∧
    (∀ (m : FolderHierarchy) (p : String) (d : Int),
        get_directory_map true m p d = .tree m) := by
  constructor
  · intro m p hmatch
    refine ⟨.mk m.value m.name m.path (m.children.map clearChildren),
      ?_, by simp, by simp, by simp, by simp, ?_, ?_⟩
    · simp only [get_directory_map, Bool.false_eq_true, if_false]
      rw [if_pos hmatch]
      simp
    · simp only [FolderHierarchy.children_mk, List.map_map]
      congr 1
      funext c
      exact clearChildren_value c
    · intro c hc
      simp only [FolderHierarchy.children_mk] at hc
      obtain ⟨x, hx, hcx⟩ := List.mem_map.mp hc
      rw [hcx.symm]
      simp
  · intro m p d
    rfl

/-- Witness for C5 amended: the healthy-lock depth-0 query and the
poisoned-lock query, both on a published tree with one child and one
grandchild. -/
theorem c5_amended_witness :
    (∃ h, get_directory_map false (.mk 10 "r" "r" [.mk 7 "a" "r" [.mk 3 "b" "r/a" []]]) "r" 0 =
        .tree h ∧
      h.value = (FolderHierarchy.mk 10 "r" "r" [.mk 7 "a" "r" [.mk 3 "b" "r/a" []]]).value ∧
      h.name = (FolderHierarchy.mk 10 "r" "r" [.mk 7 "a" "r" [.mk 3 "b" "r/a" []]]).name ∧
      h.path = (FolderHierarchy.mk 10 "r" "r" [.mk 7 "a" "r" [.mk 3 "b" "r/a" []]]).path ∧
      h.children.length =
        (FolderHierarchy.mk 10 "r" "r" [.mk 7 "a" "r" [.mk 3 "b" "r/a" []]]).children.length ∧
      h.children.map FolderHierarchy.value =
        (FolderHierarchy.mk 10 "r" "r" [.mk 7 "a" "r" [.mk 3 "b" "r/a" []]]).children.map
          FolderHierarchy.value ∧
      ∀ c ∈ h.children, c.children = []) ∧
    get_directory_map true (.mk 10 "r" "r" [.mk 7 "a" "r" [.mk 3 "b" "r/a" []]]) "x" 5 =
      .tree (.mk 10 "r" "r" [.mk 7 "a" "r" [.mk 3 "b" "r/a" []]]) :=
  ⟨c5_amended.1 (.mk 10 "r" "r" [.mk 7 "a" "r" [.mk 3 "b" "r/a" []]]) "r" (by rfl),
    c5_amended.2 (.mk 10 "r" "r" [.mk 7 "a" "r" [.mk 3 "b" "r/a" []]]) "x" 5⟩

/-- C6 counterexample: with a healthy mutex, a query whose path does
not match the published root returns the same empty-array JSON (lib.rs
line 194) that the invalid-depth branch returns (line 189) — a
silently empty result, not a structured not-found; and once the mutex
is poisoned by a scan-thread panic, the same mismatched-path query
returns the published root's full tree (lib.rs 197-204) — data for a
different root than the one asked about. -/
theorem c6_counterexample :
    get_directory_map false (.mk 10 "r" "r" []) "other" 1 = .emptyArray ∧
    get_directory_map false (.mk 10 "r" "r" []) "r" 7 = .emptyArray ∧
    get_directory_map true (.mk 10 "r" "r" []) "other" 1 = .tree (.mk 10 "r" "r" []) :=
  ⟨rfl, rfl, rfl⟩

/-- C6 amended: with a healthy mutex, a query whose separator-normalized
path differs from the published root's normalized path always returns
the empty-array result — never a crash, but an empty response identical
to the invalid-depth response rather than a distinguished not-found
value; with a poisoned mutex the query ignores the path entirely and
returns the published root's full tree, so a mismatched query can
receive another root's data. -/
theorem c6_amended :
    (∀ (m : FolderHierarchy) (p : String) (d : Int),
        normalizeSep m.path ≠ normalizeSep p →
        get_directory_map false m p d = .emptyArray) ∧
    (∀ (m : FolderHierarchy) (p : String) (d : Int),
        get_directory_map true m p d = .tree m) := by
  constructor
  · intro m p d hne
    simp only [get_directory_map, Bool.false_eq_true, if_false]
    rw [if_neg hne]
  · intro m p d
    rfl

/-- Witness for C6 amended: querying root "r" with the mismatched path
"x" at depth 0, under a healthy and under a poisoned mutex. -/
theorem c6_amended_witness :
    get_directory_map false (.mk 10 "r" "r" []) "x" 0 = .emptyArray ∧
    get_directory_map true (.mk 10 "r" "r" []) "x" 0 = .tree (.mk 10 "r" "r" []) :=
  ⟨c6_amended.1 (.mk 10 "r" "r" []) "x" 0 (by decide),
    c6_amended.2 (.mk 10 "r" "r" []) "x" 0⟩

/-- C7: with a healthy mutex, a matching path and depth 2 — neither 0
(one level) nor 1 (full tree) — the query returns the serialized empty
array (lib.rs lines 187-190) instead of reporting an invalid-argument
error; the only error report is an eprintln to stderr, invisible to
the caller (and the poisoned-lock arm reports no error to the caller
either). -/
theorem c7_invalid_depth_empty :
    get_directory_map false (.mk 10 "r" "r" []) "r" 2 = .emptyArray := rfl

/-- C8 counterexample: `scan_directory_async` does create child TreeNode
entries for regular files: scanning a root that holds a single 6-byte
file and no subdirectory yields a root whose children list is non-empty
— it contains a node for the file (lib.rs lines 125-131). -/
theorem c8_counterexample :
    scan_directory_async ["r"] (.dir "r" true [.file "g" (some 6)]) =
      some (.mk 6 "r" "r" [.mk 6 "g" "r" []]) ∧
    (([FSEntry.file "g" (some 6)]).filter FSEntry.isDir).length = 0 :=
  ⟨rfl, rfl⟩

/-- C8 amended: `scan_folder` adds file bytes without creating child
entries, so its nodes have exactly one child per subdirectory; the
root built by `scan_directory_async`, however, additionally gets one
child per readable regular file directly under the root. -/
theorem c8_amended :
    (∀ (dp : List String) (dn : String) (r : Bool) (es : List FSEntry) (h : FolderHierarchy),
        scan_folder dp (.dir dn r es) = .ok h →
        h.children.length = (es.filter FSEntry.isDir).length) ∧
    (∀ (rp : List String) (rn : String) (r : Bool) (es : List FSEntry) (h : FolderHierarchy),
        scan_directory_async rp (.dir rn r es) = some h →
        h.children.length = (es.filter FSEntry.isDir).length +
          (es.filter FSEntry.isReadableFile).length) := by
  constructor
  · intro dp dn r es h hok
    obtain ⟨hr, sz, ch, hse, hh⟩ := scan_folder_ok_shape dp dn r es h hok
    subst hh
    simp only [FolderHierarchy.children_mk]
    exact scanEntries_length es dp sz ch hse
  · intro rp rn r es h hok
    simp only [scan_directory_async] at hok
    cases r with
    | false => simp at hok
    | true =>
      simp at hok
      have := asyncFold_length es rp _ h hok
      simpa using this

/-- Witness for C8 amended: both parts at concrete scans — a directory
holding one 2-byte file for `scan_folder` (no children), and a root
holding one 6-byte file for `scan_directory_async` (one file child). -/
theorem c8_amended_witness :
    (FolderHierarchy.mk 2 "r" "" []).children.length =
      (([FSEntry.file "f" (some 2)]).filter FSEntry.isDir).length ∧
    (FolderHierarchy.mk 6 "r" "r" [.mk 6 "g" "r" []]).children.length =
      (([FSEntry.file "g" (some 6)]).filter FSEntry.isDir).length +
        (([FSEntry.file "g" (some 6)]).filter FSEntry.isReadableFile).length :=
  ⟨c8_amended.1 ["r"] "r" true [.file "f" (some 2)] (.mk 2 "r" "" []) (by rfl),
    c8_amended.2 ["r"] "r" true [.file "g" (some 6)]
      (.mk 6 "r" "r" [.mk 6 "g" "r" []]) (by rfl)⟩

/-- C9 counterexample: `scan_folder` does not store the node's own full
path in `path`: scanning the directory at full path "a/b" yields a node
whose `path` field is the parent string "a", not "a/b", and whose
`name` "b" is therefore not the final component of the stored `path`. -/
theorem c9_counterexample :
    scan_folder ["a", "b"] (.dir "b" true []) = .ok (.mk 0 "b" "a" []) ∧
    pathString ["a", "b"] = "a/b" ∧
    (FolderHierarchy.mk 0 "b" "a" []).path ≠ "a/b" := by
  refine ⟨rfl, rfl, ?_⟩
  decide

/-- C9 amended: a node built by `scan_folder` carries its own final
path component in `name` and its PARENT directory string in `path`
(lib.rs lines 64-65); only the root node built by
`scan_directory_async` carries its full path string in `path`
(lib.rs lines 98-99). -/
theorem c9_amended :
    (∀ (dp : List String) (e : FSEntry) (h : FolderHierarchy),
        scan_folder dp e = .ok h →
        h.name = lastComp dp ∧ h.path = pathString dp.dropLast) ∧
    (∀ (rp : List String) (e : FSEntry) (h : FolderHierarchy),
        scan_directory_async rp e = some h →
        h.name = lastComp rp ∧ h.path = pathString rp) := by
  constructor
  · intro dp e h hok
    cases e with
    | file fn m => simp [scan_folder] at hok
    | dir dn r es =>
      obtain ⟨hr, sz, ch, hse, hh⟩ := scan_folder_ok_shape dp dn r es h hok
      subst hh
      simp
  · intro rp e h hok
    cases e with
    | file fn m => simp [scan_directory_async] at hok
    | dir dn r es =>
      simp only [scan_directory_async] at hok
      cases r with
      | false => simp at hok
      | true =>
        simp at hok
        have := asyncFold_name_path es rp _ h hok
        simpa using this

/-- Witness for C9 amended: both parts at concrete scans — the
directory at "a/b" for `scan_folder`, and the root "r" holding one
file for `scan_directory_async`. -/
theorem c9_amended_witness :
    ((FolderHierarchy.mk 0 "b" "a" []).name = lastComp ["a", "b"] ∧
      (FolderHierarchy.mk 0 "b" "a" []).path = pathString (["a", "b"].dropLast)) ∧
    ((FolderHierarchy.mk 6 "r" "r" [.mk 6 "g" "r" []]).name = lastComp ["r"] ∧
      (FolderHierarchy.mk 6 "r" "r" [.mk 6 "g" "r" []]).path = pathString ["r"]) :=
  ⟨c9_amended.1 ["a", "b"] (.dir "b" true []) (.mk 0 "b" "a" []) (by rfl),
    c9_amended.2 ["r"] (.dir "r" true [.file "g" (some 6)])
      (.mk 6 "r" "r" [.mk 6 "g" "r" []]) (by rfl)⟩

/-- C10: `get_folder_size` and `scan_folder` are equivalent size
computations on every input: the plain traversal returns exactly the
`value` of the tree the scan builds, and the two fail on exactly the
same inputs. -/
theorem c10_size_equivalence :
    ∀ (e : FSEntry) (dp : List String),
      get_folder_size e = Except.map FolderHierarchy.value (scan_folder dp e) :=
  size_eq_scan_value.1
